import Mathlib

/-!
Verification development for the snitch notification cog
(`src/snitch/snitch.py`).  The Python source is shallowly embedded:

* the persisted `notifygroups` dict becomes an association list
  (`Groups`); Python `dict` assignment / `pop` / `get` become
  `updateKey` / `popKey` / `lookupKey`;
* monotonic wall-clock time is modelled by `ℚ`; `asyncio.sleep d`
  advances time by exactly `d`;
* the transport (discord) is a parameter: a `Behavior` maps a recipient
  and an attempt index to the outcome of that send attempt, and a
  `GuildEnv` resolves ids and names to members / roles / channels;
* fallible Python code (statements that can raise) returns `Except`;
* the regular-expression matcher built by `_check_words`
  (`re.compile("|".join(rf"\b{re.escape(w)}\b" ...), re.I)` followed by
  `findall`) is embedded directly as an ordered-alternation,
  non-overlapping, left-to-right scanner over word-boundary positions,
  with the word characters of `\b` modelled by the ASCII class
  (alphanumeric or underscore) and `re.I` by `Char.toLower`;
  `re.escape` makes each configured word a literal, so the embedding
  compares characters literally.

All definitions are executable; concrete runs are evaluated by `decide`
in the witness theorems.
-/

namespace Snitch

/-! ## Association lists: the embedding of Python `dict` -/

def lookupKey {α : Type} (k : String) : List (String × α) → Option α
  | [] => none
  | (k', v) :: t => if k' = k then some v else lookupKey k t

def updateKey {α : Type} (k : String) (v : α) : List (String × α) → List (String × α)
  | [] => [(k, v)]
  | (k', v') :: t => if k' = k then (k, v) :: t else (k', v') :: updateKey k v t

def popKey {α : Type} (k : String) : List (String × α) → List (String × α)
  | [] => []
  | (k', v') :: t => if k' = k then t else (k', v') :: popKey k t

/-! ## Guild environment (identity resolution, `discord` objects) -/

structure Mem where
  id : ℕ
  bot : Bool
  name : String
  displayName : String
deriving DecidableEq, Repr

structure RoleE where
  id : ℕ
  name : String
  members : List Mem
deriving DecidableEq, Repr

structure Chan where
  id : ℕ
  name : String
deriving DecidableEq, Repr

structure GuildEnv where
  members : List Mem
  roles : List RoleE
  channels : List Chan

def GuildEnv.getMember (env : GuildEnv) (i : ℕ) : Option Mem :=
  env.members.find? (fun m => m.id == i)

def GuildEnv.getRole (env : GuildEnv) (i : ℕ) : Option RoleE :=
  env.roles.find? (fun r => r.id == i)

def GuildEnv.getChannel (env : GuildEnv) (i : ℕ) : Option Chan :=
  env.channels.find? (fun c => c.id == i)

/-- A resolved target entity, as returned by `Snitch._identify_target`. -/
inductive Entity where
  | member (m : Mem)
  | role (r : RoleE)
  | channel (c : Chan)
deriving DecidableEq, Repr

def Entity.eid : Entity → ℕ
  | .member m => m.id
  | .role r => r.id
  | .channel c => c.id

/-- Python `type(coerced).__name__` for the three discord classes the cog stores. -/
def Entity.typeName : Entity → String
  | .member _ => "Member"
  | .role _ => "Role"
  | .channel _ => "TextChannel"

/-! ## `_identify_target` (snitch.py lines 79-130) -/

def stripSet : List Char := "!<#>@&".toList

def stripTargetChars (s : List Char) : List Char :=
  ((s.dropWhile (fun c => c ∈ stripSet)).reverse.dropWhile (fun c => c ∈ stripSet)).reverse

def isNumericStr (s : List Char) : Bool :=
  !s.isEmpty && s.all Char.isDigit

def digitsToNat (s : List Char) : ℕ :=
  s.foldl (fun a c => a * 10 + (c.toNat - ('0').toNat)) 0

def lowerL (s : List Char) : List Char := s.map Char.toLower

def identifyTarget (env : GuildEnv) (target : String) : Option Entity :=
  let tl := stripTargetChars target.toList
  if isNumericStr tl then
    let i := digitsToNat tl
    match env.getMember i with
    | some m => some (.member m)
    | none =>
      match env.getRole i with
      | some r => some (.role r)
      | none =>
        match env.getChannel i with
        | some c => some (.channel c)
        | none => none
  else
    match env.roles.find? (fun r => lowerL r.name.toList == lowerL target.toList) with
    | some r => some (.role r)
    | none =>
      match env.members.find?
          (fun m => lowerL m.name.toList == lowerL target.toList
            || lowerL m.displayName.toList == lowerL target.toList) with
      | some m => some (.member m)
      | none =>
        match env.channels.find? (fun c => lowerL c.name.toList == lowerL target.toList) with
        | some c => some (.channel c)
        | none => none

/-! ## Notification group store -/

/-- One stored target record: `{"id": coerced.id, "type": type(coerced).__name__}`. -/
structure TargetRec where
  id : ℕ
  type : String
deriving DecidableEq, Repr

/-- One notification group: `{"words": [...], "targets": {...}, "message": ...}`. -/
structure NotifyGroup where
  words : List String
  targets : List (String × TargetRec)
  message : Option String
deriving DecidableEq, Repr

/-- The default that `_words_add` / `_snitch_add` build for a missing group. -/
def emptyGroup : NotifyGroup := ⟨[], [], none⟩

abbrev Groups : Type := List (String × NotifyGroup)

/-! ## Admin commands -/

/-- Body of the loop of `_words_add` (lines 211-213):
`if not word in notifygroup["words"]: notifygroup["words"].append(word)`. -/
def wordsAddWord (ws : List String) (w : String) : List String :=
  if w ∈ ws then ws else ws ++ [w]

/-- The whole loop of `_words_add` over the words of one command. -/
def wordsAddAll (ws : List String) (words : List String) : List String :=
  words.foldl wordsAddWord ws

/-- Python `list.remove`: drops the first occurrence, raises `ValueError`
when the element is absent (line 237). -/
def listRemoveStr (l : List String) (w : String) : Except Unit (List String) :=
  if w ∈ l then .ok (l.erase w) else .error ()

/-- Embeds `_words_remove` (lines 231-239): gets the group (or a fresh default),
then calls `list.remove` for each word in turn; an absent word raises and
aborts the remaining words. -/
def wordsRemoveCmd (groups : Groups) (g : String) (words : List String) :
    Except Unit Groups :=
  let ng := (lookupKey g groups).getD emptyGroup
  (words.foldlM (fun acc w => listRemoveStr acc w) ng.words).map
    (fun ws => updateKey g { ng with words := ws } groups)

/-- Embeds `_snitch_del` (lines 180-190): when the group is missing the code sends
"Group doesn't exist." but then still enters the loop and subscripts `None`
(`target in notifygroup["targets"]`), raising `TypeError` on the first
target; when the group exists, present targets are popped and absent ones
reported, without raising. -/
def snitchDelCmd (groups : Groups) (g : String) (targets : List String) :
    Except Unit (Groups × List String) :=
  match lookupKey g groups with
  | none =>
    match targets with
    | [] => .ok (groups, ["Group does not exist."])
    | _ :: _ => .error ()
  | some ng =>
    let step := fun (acc : List (String × TargetRec) × List String) (tgt : String) =>
      if (lookupKey tgt acc.1).isSome then
        (popKey tgt acc.1, acc.2 ++ ["Removed " ++ tgt ++ "."])
      else
        (acc.1, acc.2 ++ ["Could not find " ++ tgt ++ "."])
    let res := targets.foldl step (ng.targets, [])
    .ok (updateKey g { ng with targets := res.1 } groups, res.2)

/-- Embeds `_snitch_add` (lines 148-164): each resolvable free-text target is stored
in the group's target dict keyed by the raw spelling, with the resolved id
and the runtime type name as value. -/
def snitchAddCmd (env : GuildEnv) (groups : Groups) (g : String)
    (targets : List String) : Groups :=
  let ng := (lookupKey g groups).getD emptyGroup
  let ng' := targets.foldl
    (fun acc tgt =>
      match identifyTarget env tgt with
      | some e => { acc with targets := updateKey tgt ⟨e.eid, e.typeName⟩ acc.targets }
      | none => acc)
    ng
  updateKey g ng' groups

/-- The stored targets of a group, read back from the store. -/
def targetsOf (groups : Groups) (g : String) : List (String × TargetRec) :=
  ((lookupKey g groups).getD emptyGroup).targets

/-- Embeds `_clear_list` (lines 283-294): with no group name the whole mapping is
cleared; with a name, a present group is popped and an absent one reported. -/
def clearList (groups : Groups) (g : Option String) : Groups × List String :=
  match g with
  | none => ([], ["Cleared all snitch settings."])
  | some name =>
    if (lookupKey name groups).isSome then
      (popKey name groups, ["Removed " ++ name ++ " from snitch settings."])
    else
      (groups, ["Could not find " ++ name ++ " in snitch settings."])

/-! ## Trigger detector (`_check_words`, lines 560-581)

The compiled pattern is the ordered alternation of `\b w \b` for the
group's words, with `re.I`; `findall` scans left to right, at each
position tries the alternatives in order, takes the first that matches,
records the matched text (in the text's own spelling) and resumes after
it (non-overlapping); `set(...)` deduplicates. -/

def isWordChar (c : Char) : Bool := c.isAlphanum || c == '_'

def isWordAt (T : List Char) (i : ℕ) : Bool :=
  match T[i]? with
  | some c => isWordChar c
  | none => false

/-- Python `\b`: exactly one side of position `i` is a word character. -/
def boundaryAt (T : List Char) (i : ℕ) : Bool :=
  (if i = 0 then false else isWordAt T (i - 1)) != isWordAt T i

/-- Case-insensitive (re.I) literal comparison of a word against the text
suffix, character by character (`re.escape` makes the word literal). -/
def ciPrefix : List Char → List Char → Bool
  | [], _ => true
  | _ :: _, [] => false
  | c :: w, d :: t => (c.toLower == d.toLower) && ciPrefix w t

/-- Does the alternative `\b w \b` match at position `p`? -/
def matchAt (T : List Char) (p : ℕ) (w : List Char) : Bool :=
  boundaryAt T p && ciPrefix w (T.drop p) && boundaryAt T (p + w.length)

/-- Ordered alternation: the first word of the list matching at `p`. -/
def firstMatch (ws : List (List Char)) (T : List Char) (p : ℕ) : Option (List Char) :=
  ws.find? (fun w => matchAt T p w)

/-- The scan of `findall`, with explicit fuel (`fuel ≥ T.length + 1 - p`
makes it total over the whole text; `pyFindall` supplies that). -/
def findallAux (ws : List (List Char)) (T : List Char) : ℕ → ℕ → List (List Char)
  | 0, _ => []
  | fuel + 1, p =>
    if p ≤ T.length then
      match firstMatch ws T p with
      | some w =>
        ((T.drop p).take w.length) ::
          findallAux ws T fuel (if w.length = 0 then p + 1 else p + w.length)
      | none => if p = T.length then [] else findallAux ws T fuel (p + 1)
    else []

def pyFindall (ws : List (List Char)) (T : List Char) : List (List Char) :=
  findallAux ws T (T.length + 1) 0

/-- Embeds `matches = set(pattern.findall(message.content))` (line 573),
modelled as a duplicate-free list. -/
def snitchMatches (ws : List (List Char)) (T : List Char) : List (List Char) :=
  (pyFindall ws T).dedup

/-- Modelled from the spec side for comparison: `w` occurs in `T` as a
case-insensitive whole-word token (the claim's occurrence notion, stated
with the same boundary semantics the pattern compiles to). -/
def occursWholeWordCI (w T : List Char) : Bool :=
  (List.range (T.length + 1)).any (fun p => matchAt T p w)

/-! ## Message templating (`_notify_words`, lines 458-465) -/

def authorTok : List Char := "\x7b\x7bauthor\x7d\x7d".toList
def wordsTok : List Char := "\x7b\x7bwords\x7d\x7d".toList
def serverTok : List Char := "\x7b\x7bserver\x7d\x7d".toList
def channelTok : List Char := "\x7b\x7bchannel\x7d\x7d".toList

def defaultMsg : List Char :=
  "Snitching on \x7b\x7bauthor\x7d\x7d for saying \x7b\x7bwords\x7d\x7d".toList

/-- Python `str.replace` for a nonempty pattern: left-to-right,
non-overlapping, replaces every occurrence.  Fuel-indexed to stay
structurally recursive; `fuel ≥ s.length` gives the real function. -/
def replaceAllF (pat rep : List Char) : ℕ → List Char → List Char
  | 0, s => s
  | _ + 1, [] => []
  | fuel + 1, c :: rest =>
    if pat.isPrefixOf (c :: rest) then
      rep ++ replaceAllF pat rep fuel ((c :: rest).drop pat.length)
    else c :: replaceAllF pat rep fuel rest

def replaceAll (pat rep s : List Char) : List Char :=
  match pat with
  | [] => s
  | _ :: _ => replaceAllF pat rep s.length s

/-- Python `pat in s` (substring occurrence), used to state when a
replace pass finds nothing. -/
def containsSub (pat s : List Char) : Bool :=
  (List.range (s.length + 1)).any (fun i => pat.isPrefixOf (s.drop i))

/-- Embeds line 458: the matched words joined with the separator " and ". -/
def joinAnd (ws : List (List Char)) : List Char :=
  match ws with
  | [] => []
  | w :: rest => rest.foldl (fun acc x => acc ++ " and ".toList ++ x) w

/-- The chained substitution of lines 459-465: author, then words, then
server, then channel, each a full `str.replace` pass over the previous
pass's output. -/
def renderMessage (baseMsg : Option (List Char))
    (author words server channel : List Char) : List Char :=
  let b := baseMsg.getD defaultMsg
  replaceAll channelTok channel
    (replaceAll serverTok server
      (replaceAll wordsTok words
        (replaceAll authorTok author b)))

/-! ## RateLimiter (`wait_if_needed`, lines 23-42)

Time is `ℚ`; the body runs under the instance lock, so concurrent
callers serialize and each caller's `current_time` is the time the
previous caller finished.  `asyncio.sleep` advances time by exactly the
requested amount. -/

/-- The lazy prune: keep timestamps strictly younger than one second. -/
def pruneTs (now : ℚ) (l : List ℚ) : List ℚ :=
  l.filter (fun ts => now - ts < 1)

/-- One `wait_if_needed` call: prune, then if the window is full wait
`1.0 - (current_time - self.message_timestamps[0])` (when positive), then
append the time the send actually proceeds.  Returns the new timestamp
list and the proceed time. -/
def rlStep (m : ℕ) (l : List ℚ) (now : ℚ) : List ℚ × ℚ :=
  let pruned := pruneTs now l
  if m ≤ pruned.length then
    match pruned with
    | [] => (pruned ++ [now], now)
    | t0 :: _ =>
      let w := 1 - (now - t0)
      if 0 < w then (pruned ++ [now + w], now + w)
      else (pruned ++ [now], now)
  else (pruned ++ [now], now)

/-- State (timestamp list, clock) after `n` back-to-back calls. -/
def rlRun (m : ℕ) : ℕ → List ℚ → ℚ → List ℚ × ℚ
  | 0, l, now => (l, now)
  | n + 1, l, now =>
    let s := rlStep m l now
    rlRun m n s.1 s.2

/-- The recorded send (proceed) times of `n` back-to-back calls. -/
def rlProceeds (m : ℕ) : ℕ → List ℚ → ℚ → List ℚ
  | 0, _, _ => []
  | n + 1, l, now =>
    let s := rlStep m l now
    s.2 :: rlProceeds m n s.1 s.2

/-- A burst of `n` requests against a fresh limiter starting at time `t`. -/
def rlBurst (m n : ℕ) (t : ℚ) : List ℚ := rlProceeds m n [] t

/-- Membership of a timestamp in the trailing 1-second window ending at `T`. -/
def inWindow (T x : ℚ) : Bool := decide (T - x < 1 ∧ x ≤ T)

/-! ## Delivery dispatch (`_send_to_member` lines 388-438,
`_notify_words` / `send_to_target` lines 440-550)

Each send attempt against the transport is an event; the transport's
response to the `n`-th attempt at a recipient is given by a `Behavior`.
`discord.RateLimited` carries `retry_after`. -/

inductive SendRes where
  | ok
  | rateLimited (retryAfter : ℚ)
  | failed
deriving DecidableEq, Repr

structure Behavior where
  dm : ℕ → ℕ → SendRes
  chan : ℕ → ℕ → SendRes

/-- Log records (`logging.info` / `logging.error` calls). -/
inductive LogTag where
  | sentOk
  | retryOk
  | rateLimitedLog (retryAfter : ℚ)
  | retryFailed (last : SendRes)
  | exceptionLog (e : SendRes)
deriving DecidableEq, Repr

/-- Trace events of one dispatch: rate-limiter waits, sleeps, send
attempts (`dm` keeps the recipient's `bot` flag at send time), logs. -/
inductive Ev where
  | waitRL
  | sleep (d : ℚ)
  | dm (rid : ℕ) (bot : Bool)
  | chanSend (cid : ℕ)
  | log (t : LogTag)
deriving DecidableEq, Repr

/-- Embeds `_send_to_member`: skip bots; wait on the limiter; send; on
`RateLimited` log, sleep `retry_after`, wait and retry once, logging the
retry's outcome; on any other failure log the exception.  Never raises. -/
def sendToMember (beh : Behavior) (m : Mem) : List Ev :=
  if m.bot then []
  else
    match beh.dm m.id 0 with
    | .ok => [.waitRL, .dm m.id m.bot, .log .sentOk]
    | .rateLimited ra =>
      [.waitRL, .dm m.id m.bot, .log (.rateLimitedLog ra), .sleep ra, .waitRL,
        .dm m.id m.bot] ++
        (match beh.dm m.id 1 with
        | .ok => [.log .retryOk]
        | r => [.log (.retryFailed r)])
    | .failed => [.waitRL, .dm m.id m.bot, .log (.exceptionLog .failed)]

/-- What the `try` body of `send_to_target` raises, if anything. -/
inductive Raised where
  | rl (retryAfter : ℚ)
  | exc (e : SendRes)
deriving DecidableEq, Repr

/-- The `try` body of `send_to_target` (lines 483-511): channel targets
send directly (their `RateLimited` / other errors escape to the handlers);
member targets go through `_send_to_member` (which absorbs all errors);
role targets expand to `_send_to_member` per current role member. -/
def sendBody (env : GuildEnv) (beh : Behavior) (t : TargetRec) :
    List Ev × Option Raised :=
  if t.type = "TextChannel" then
    match env.getChannel t.id with
    | none => ([], none)
    | some c =>
      match beh.chan c.id 0 with
      | .ok => ([.waitRL, .chanSend c.id, .log .sentOk], none)
      | .rateLimited ra => ([.waitRL, .chanSend c.id], some (.rl ra))
      | .failed => ([.waitRL, .chanSend c.id], some (.exc .failed))
  else if t.type = "Member" then
    match env.getMember t.id with
    | none => ([], none)
    | some m => (sendToMember beh m, none)
  else if t.type = "Role" then
    match env.getRole t.id with
    | none => ([], none)
    | some r => ((r.members.map (sendToMember beh)).flatten, none)
  else ([], none)

/-- The member loop of the retry handler (lines 531-533): direct
`member.send` calls with no bot check, stopping at the first raise. -/
def retryRoleSends (beh : Behavior) : List Mem → List Ev × Option SendRes
  | [] => ([], none)
  | m :: ms =>
    match beh.dm m.id 1 with
    | .ok =>
      let rest := retryRoleSends beh ms
      (.dm m.id m.bot :: rest.1, rest.2)
    | r => ([.dm m.id m.bot], some r)

/-- The per-type resend of the retry handler (lines 521-533): note the
member and role arms call `send` directly, without the bot check. -/
def retrySends (env : GuildEnv) (beh : Behavior) (t : TargetRec) :
    List Ev × Option SendRes :=
  if t.type = "TextChannel" then
    match env.getChannel t.id with
    | none => ([], none)
    | some c =>
      match beh.chan c.id 1 with
      | .ok => ([.chanSend c.id], none)
      | r => ([.chanSend c.id], some r)
  else if t.type = "Member" then
    match env.getMember t.id with
    | none => ([], none)
    | some m =>
      match beh.dm m.id 1 with
      | .ok => ([.dm m.id m.bot], none)
      | r => ([.dm m.id m.bot], some r)
  else if t.type = "Role" then
    match env.getRole t.id with
    | none => ([], none)
    | some r => retryRoleSends beh r.members
  else ([], none)

/-- The `except discord.RateLimited` handler (lines 513-538): log, sleep
`retry_after`, wait on the limiter, resend once; any failure of the
resend is caught and logged as RETRY FAILED. -/
def retryBlock (env : GuildEnv) (beh : Behavior) (t : TargetRec) (ra : ℚ) :
    List Ev :=
  let rs := retrySends env beh t
  [.log (.rateLimitedLog ra), .sleep ra, .waitRL] ++ rs.1 ++
    [match rs.2 with
     | none => .log .retryOk
     | some r => .log (.retryFailed r)]

/-- Embeds `send_to_target`: the body with its two exception handlers; the
generic `except Exception` logs and returns, so the function never
raises. -/
def sendToTarget (env : GuildEnv) (beh : Behavior) (t : TargetRec) : List Ev :=
  let body := sendBody env beh t
  match body.2 with
  | none => body.1
  | some (.rl ra) => body.1 ++ retryBlock env beh t ra
  | some (.exc e) => body.1 ++ [.log (.exceptionLog e)]

/-- Embeds the `_notify_words` dispatch loop (lines 475-550): one task per stored
target record, all run to completion (`asyncio.wait ALL_COMPLETED`);
the per-target traces are kept separate. -/
def notifyWords (env : GuildEnv) (beh : Behavior) (targets : List TargetRec) :
    List (List Ev) :=
  targets.map (sendToTarget env beh)

/-! ### Trace observations -/

def isDmEv : Ev → Bool
  | .dm _ _ => true
  | _ => false

def isChanEv : Ev → Bool
  | .chanSend _ => true
  | _ => false

def sleepsOf (tr : List Ev) : List ℚ :=
  tr.filterMap (fun e => match e with | .sleep d => some d | _ => none)

/-- The `logging.error` records: a trace containing one reports a failure. -/
def isErrLog : Ev → Bool
  | .log (.rateLimitedLog _) => true
  | .log (.retryFailed _) => true
  | .log (.exceptionLog _) => true
  | _ => false

def hasErr (tr : List Ev) : Bool := tr.any isErrLog

def countDmTo (rid : ℕ) (tr : List Ev) : ℕ :=
  tr.countP (fun e => match e with | .dm r _ => r == rid | _ => false)

/-! # Theorems -/

/-! ## Association-list lemmas -/

theorem lookupKey_eq_none_of_not_mem {α : Type} {k : String}
    {l : List (String × α)} (h : k ∉ l.map Prod.fst) : lookupKey k l = none := by
  induction l with
  | nil => rfl
  | cons p t ih =>
    obtain ⟨k', v⟩ := p
    simp only [List.map_cons, List.mem_cons, not_or] at h
    have hne : k' ≠ k := fun e => h.1 e.symm
    simp only [lookupKey, if_neg hne]
    exact ih h.2

theorem lookupKey_popKey_self {α : Type} (k : String) (l : List (String × α))
    (h : (l.map Prod.fst).Nodup) : lookupKey k (popKey k l) = none := by
  induction l with
  | nil => rfl
  | cons p t ih =>
    obtain ⟨k', v⟩ := p
    simp only [List.map_cons, List.nodup_cons] at h
    by_cases hk : k' = k
    · simp only [popKey, if_pos hk]
      exact lookupKey_eq_none_of_not_mem (hk ▸ h.1)
    · simp only [popKey, if_neg hk, lookupKey, if_neg hk]
      exact ih h.2

theorem lookupKey_popKey_ne {α : Type} {m k : String} (hmk : m ≠ k)
    (l : List (String × α)) : lookupKey m (popKey k l) = lookupKey m l := by
  induction l with
  | nil => rfl
  | cons p t ih =>
    obtain ⟨k', v⟩ := p
    by_cases hk : k' = k
    · have hne : k' ≠ m := fun e => hmk (e.symm.trans hk)
      simp only [popKey, if_pos hk, lookupKey, if_neg hne]
    · simp only [popKey, if_neg hk, lookupKey]
      by_cases hm : k' = m
      · simp [hm]
      · simp only [if_neg hm, ih]

/-! ## C7, C8, C9 -/

/-- C7: the claim says an administrative removal of an absent word or
target, or one aimed at a nonexistent group, is reported as a
user-visible message and never raises an exception that aborts the rest
of the batch.  The code violates this twice: `_words_remove` calls
`list.remove`, which raises `ValueError` for an absent word and aborts
the remaining words of the command, and `_snitch_del` on a missing group
sends its message but then subscripts `None` and raises `TypeError`.
This theorem evaluates the embedded commands at those failing inputs. -/
theorem admin_remove_raises_on_absent :
    wordsRemoveCmd [("tech", ⟨["wifi"], [], none⟩)] "tech" ["absent", "wifi"]
      = Except.error ()
    ∧ snitchDelCmd ([] : Groups) "ghost" ["x"] = Except.error () := by
  exact ⟨rfl, rfl⟩

/-- C8: clearing a named group pops exactly that group's entry (its
words, targets and message all live in that entry), leaves every other
group's entry untouched, and clearing with no group name empties the
whole scope.  The key-uniqueness hypothesis is the `dict` invariant. -/
theorem clear_group_frame (groups : Groups) (name : String)
    (hnod : (groups.map Prod.fst).Nodup) :
    lookupKey name (clearList groups (some name)).1 = none
    ∧ (∀ m, m ≠ name → lookupKey m (clearList groups (some name)).1 = lookupKey m groups)
    ∧ (clearList groups none).1 = [] := by
  by_cases hpres : (lookupKey name groups).isSome
  · refine ⟨?_, ?_, rfl⟩
    · simp only [clearList, if_pos hpres]
      exact lookupKey_popKey_self name groups hnod
    · intro m hm
      simp only [clearList, if_pos hpres]
      exact lookupKey_popKey_ne hm groups
  · refine ⟨?_, ?_, rfl⟩
    · simp only [clearList, if_neg hpres]
      exact Option.not_isSome_iff_eq_none.mp hpres
    · intro m hm
      simp only [clearList, if_neg hpres]

/-- Witness for C8 at a concrete two-group scope. -/
theorem clear_group_frame_witness :
    ((([("tech", (⟨["wifi"], [], none⟩ : NotifyGroup)),
        ("hr", (⟨["pay"], [], none⟩ : NotifyGroup))] : Groups).map Prod.fst).Nodup)
    ∧ lookupKey "tech"
        (clearList [("tech", ⟨["wifi"], [], none⟩), ("hr", ⟨["pay"], [], none⟩)]
          (some "tech")).1 = none := by
  refine ⟨by decide, ?_⟩
  exact (clear_group_frame
    [("tech", ⟨["wifi"], [], none⟩), ("hr", ⟨["pay"], [], none⟩)] "tech" (by decide)).1

/-- C9: adding a trigger word already in the group's word list leaves
the list unchanged; adding the same word twice equals adding it once,
and the length after the second add is stable. -/
theorem words_add_idempotent (ws : List String) (w : String) :
    wordsAddWord (wordsAddWord ws w) w = wordsAddWord ws w
    ∧ (w ∈ ws → wordsAddWord ws w = ws)
    ∧ (wordsAddWord (wordsAddWord ws w) w).length = (wordsAddWord ws w).length := by
  by_cases h : w ∈ ws
  · simp [wordsAddWord, h]
  · refine ⟨?_, fun hw => absurd hw h, ?_⟩ <;>
      simp [wordsAddWord, h, List.mem_append]

/-! ## Dispatch lemmas (C1, C2, C4, C10) -/

theorem getMember_id {env : GuildEnv} {i : ℕ} {mm : Mem}
    (h : env.getMember i = some mm) : mm.id = i := by
  have := List.find?_some h
  simpa using this

/-- Trace of a member send when the transport accepts the first attempt. -/
theorem sendToMember_ok {beh : Behavior} {mm : Mem}
    (hbot : mm.bot = false) (hok : beh.dm mm.id 0 = .ok) :
    sendToMember beh mm = [.waitRL, .dm mm.id false, .log .sentOk] := by
  simp [sendToMember, hbot, hok]

/-- Trace of a member send when the transport fails terminally. -/
theorem sendToMember_failed {beh : Behavior} {mm : Mem}
    (hbot : mm.bot = false) (hfail : beh.dm mm.id 0 = .failed) :
    sendToMember beh mm = [.waitRL, .dm mm.id false, .log (.exceptionLog .failed)] := by
  simp [sendToMember, hbot, hfail]

/-- Trace of a member send when the transport rate-limits both attempts. -/
theorem sendToMember_both_limited {beh : Behavior} {mm : Mem} {ra0 ra1 : ℚ}
    (hbot : mm.bot = false)
    (h0 : beh.dm mm.id 0 = .rateLimited ra0) (h1 : beh.dm mm.id 1 = .rateLimited ra1) :
    sendToMember beh mm =
      [.waitRL, .dm mm.id false, .log (.rateLimitedLog ra0), .sleep ra0, .waitRL,
        .dm mm.id false, .log (.retryFailed (.rateLimited ra1))] := by
  simp [sendToMember, hbot, h0, h1]

/-- Trace of a member-typed target whose recipient resolves, is not a
bot, and whose first send attempt succeeds. -/
theorem sendToTarget_member_ok {env : GuildEnv} {beh : Behavior} {t : TargetRec}
    {mm : Mem} (htype : t.type = "Member") (hmm : env.getMember t.id = some mm)
    (hbot : mm.bot = false) (hok : beh.dm mm.id 0 = .ok) :
    sendToTarget env beh t = [.waitRL, .dm mm.id false, .log .sentOk] := by
  have hb : sendBody env beh t = ([.waitRL, .dm mm.id false, .log .sentOk], none) := by
    simp [sendBody, htype, hmm, sendToMember_ok hbot hok]
  simp [sendToTarget, hb]

/-- Trace of a member-typed target whose recipient resolves, is not a
bot, and whose send fails terminally. -/
theorem sendToTarget_member_failed {env : GuildEnv} {beh : Behavior} {t : TargetRec}
    {mm : Mem} (htype : t.type = "Member") (hmm : env.getMember t.id = some mm)
    (hbot : mm.bot = false) (hfail : beh.dm mm.id 0 = .failed) :
    sendToTarget env beh t = [.waitRL, .dm mm.id false, .log (.exceptionLog .failed)] := by
  have hb : sendBody env beh t
      = ([.waitRL, .dm mm.id false, .log (.exceptionLog .failed)], none) := by
    simp [sendBody, htype, hmm, sendToMember_failed hbot hfail]
  simp [sendToTarget, hb]

/-- Trace of a channel target that the transport rate-limits on both the
original attempt and the retry. -/
theorem sendToTarget_chan_both_limited {env : GuildEnv} {beh : Behavior}
    {tid : ℕ} {c : Chan} {rb0 rb1 : ℚ}
    (hc : env.getChannel tid = some c)
    (h0 : beh.chan c.id 0 = .rateLimited rb0) (h1 : beh.chan c.id 1 = .rateLimited rb1) :
    sendToTarget env beh ⟨tid, "TextChannel"⟩ =
      [.waitRL, .chanSend c.id, .log (.rateLimitedLog rb0), .sleep rb0, .waitRL,
        .chanSend c.id, .log (.retryFailed (.rateLimited rb1))] := by
  have hb : sendBody env beh ⟨tid, "TextChannel"⟩
      = ([.waitRL, .chanSend c.id], some (.rl rb0)) := by
    simp [sendBody, hc, h0]
  simp [sendToTarget, hb, retryBlock, retrySends, hc, h1]

/-! ## C1: retry ceiling -/

/-- C1: against a transport that always reports a transient rate-limited
failure, the retrying send paths (member DM retry in `_send_to_member`,
channel retry in `send_to_target`) attempt the send at most 3 times
total (the code performs exactly 2 attempts: the original and one
retry), sleep exactly the transport-specified retry-after duration
between the attempts, and end by recording the last failure instead of
retrying again. -/
theorem retry_ceiling (env : GuildEnv) (beh : Behavior) (m : Mem)
    (tid : ℕ) (c : Chan) (ra0 ra1 rb0 rb1 : ℚ)
    (hbot : m.bot = false)
    (hm0 : beh.dm m.id 0 = .rateLimited ra0)
    (hm1 : beh.dm m.id 1 = .rateLimited ra1)
    (hc : env.getChannel tid = some c)
    (hc0 : beh.chan c.id 0 = .rateLimited rb0)
    (hc1 : beh.chan c.id 1 = .rateLimited rb1) :
    ((sendToMember beh m).countP isDmEv ≤ 3
      ∧ sleepsOf (sendToMember beh m) = [ra0]
      ∧ (sendToMember beh m).getLast? = some (.log (.retryFailed (.rateLimited ra1))))
    ∧ ((sendToTarget env beh ⟨tid, "TextChannel"⟩).countP isChanEv ≤ 3
      ∧ sleepsOf (sendToTarget env beh ⟨tid, "TextChannel"⟩) = [rb0]
      ∧ (sendToTarget env beh ⟨tid, "TextChannel"⟩).getLast?
          = some (.log (.retryFailed (.rateLimited rb1)))) := by
  rw [sendToMember_both_limited hbot hm0 hm1,
    sendToTarget_chan_both_limited hc hc0 hc1]
  refine ⟨⟨?_, rfl, rfl⟩, ⟨?_, rfl, rfl⟩⟩ <;>
    simp [List.countP_cons, isDmEv, isChanEv, sleepsOf]

/-- Witness for C1 with a transport that always answers rate-limited
with retry-after 2. -/
theorem retry_ceiling_witness :
    (sendToMember ⟨fun _ _ => .rateLimited 2, fun _ _ => .rateLimited 2⟩
        ⟨7, false, "brent", "Brent"⟩).countP isDmEv ≤ 3
    ∧ sleepsOf (sendToMember ⟨fun _ _ => .rateLimited 2, fun _ _ => .rateLimited 2⟩
        ⟨7, false, "brent", "Brent"⟩) = [2] := by
  have h := retry_ceiling ⟨[], [], [⟨30, "general"⟩]⟩
    ⟨fun _ _ => .rateLimited 2, fun _ _ => .rateLimited 2⟩
    ⟨7, false, "brent", "Brent"⟩ 30 ⟨30, "general"⟩ 2 2 2 2
    rfl rfl rfl rfl rfl rfl
  exact ⟨h.1.1, h.1.2.1⟩

/-! ## C2: failure isolation -/

theorem countP_map_eq_one {α β : Type} (l : List α) (f : α → β) (p : β → Bool) :
    ∀ (j : ℕ), j < l.length →
    (∀ i (hi : i < l.length), (p (f l[i]) = true ↔ i = j)) →
    (l.map f).countP p = 1 := by
  induction l with
  | nil => intro j hj _; simp at hj
  | cons a t ih =>
    intro j hj h
    cases j with
    | zero =>
      have ha : p (f a) = true := by
        have := (h 0 (by simp)).mpr rfl
        simpa using this
      have ht : (t.map f).countP p = 0 := by
        apply List.countP_eq_zero.mpr
        intro x hx
        rcases List.mem_map.mp hx with ⟨y, hy, rfl⟩
        rcases List.mem_iff_getElem.mp hy with ⟨i, hi, rfl⟩
        have hiff := h (i + 1) (by simpa using hi)
        simp only [List.getElem_cons_succ] at hiff
        intro hp
        exact absurd (hiff.mp hp) (by omega)
      simp [List.countP_cons, ha, ht]
    | succ j' =>
      have ha : p (f a) = false := by
        have hiff := h 0 (by simp)
        simp only [List.getElem_cons_zero] at hiff
        rw [Bool.eq_false_iff]
        intro hp
        exact absurd (hiff.mp hp) (by omega)
      have ht : (t.map f).countP p = 1 := by
        apply ih j' (by simpa using hj)
        intro i hi
        have hiff := h (i + 1) (by simpa using hi)
        simp only [List.getElem_cons_succ] at hiff
        rw [hiff]
        exact ⟨fun h2 => by omega, fun h2 => by omega⟩
      simp [List.countP_cons, ha, ht]

/-- C2: with every target a member-typed record whose recipient resolves
to a non-bot member, a transport that fails terminally for target `j`
and accepts every other target's send, the dispatcher (a total function:
no exception reaches its caller) still produces a per-target trace for
all N targets, exactly one trace records a failure, and every sibling
target's direct send is present in its own trace. -/
theorem failure_isolation (env : GuildEnv) (beh : Behavior) (ts : List TargetRec)
    (j : ℕ) (hj : j < ts.length)
    (htype : ∀ t ∈ ts, t.type = "Member")
    (hres : ∀ t ∈ ts, ∃ mm, env.getMember t.id = some mm ∧ mm.bot = false)
    (hfail : beh.dm (ts[j].id) 0 = .failed)
    (hok : ∀ i (hi : i < ts.length), i ≠ j → beh.dm (ts[i].id) 0 = .ok) :
    (notifyWords env beh ts).length = ts.length
    ∧ (notifyWords env beh ts).countP hasErr = 1
    ∧ ∀ i (hi : i < ts.length), i ≠ j →
        Ev.dm (ts[i].id) false ∈ (notifyWords env beh ts).get
          ⟨i, by simpa [notifyWords] using hi⟩ := by
  refine ⟨by simp [notifyWords], ?_, ?_⟩
  · apply countP_map_eq_one ts (sendToTarget env beh) hasErr j hj
    intro i hi
    rcases hres ts[i] (ts.getElem_mem hi) with ⟨mm, hmm, hbot⟩
    have hid : mm.id = ts[i].id := getMember_id hmm
    by_cases hij : i = j
    · subst hij
      rw [sendToTarget_member_failed (htype ts[i] (ts.getElem_mem hi)) hmm hbot
        (by rw [hid]; exact hfail)]
      simp [hasErr, isErrLog]
    · rw [sendToTarget_member_ok (htype ts[i] (ts.getElem_mem hi)) hmm hbot
        (by rw [hid]; exact hok i hi hij)]
      simp [hasErr, isErrLog, hij]
  · intro i hi hij
    rcases hres ts[i] (ts.getElem_mem hi) with ⟨mm, hmm, hbot⟩
    have hid : mm.id = ts[i].id := getMember_id hmm
    have htr : (notifyWords env beh ts).get ⟨i, by simpa [notifyWords] using hi⟩
        = sendToTarget env beh ts[i] := by
      simp [notifyWords]
    rw [htr, sendToTarget_member_ok (htype ts[i] (ts.getElem_mem hi)) hmm hbot
      (by rw [hid]; exact hok i hi hij), ← hid]
    simp

/-- Witness for C2: three member targets, the middle one failing
terminally. -/
theorem failure_isolation_witness :
    (notifyWords
      ⟨[⟨1, false, "a", "a"⟩, ⟨2, false, "b", "b"⟩, ⟨3, false, "c", "c"⟩], [], []⟩
      ⟨fun r _ => if r = 2 then .failed else .ok, fun _ _ => .ok⟩
      [⟨1, "Member"⟩, ⟨2, "Member"⟩, ⟨3, "Member"⟩]).countP hasErr = 1 := by
  have h := failure_isolation
    ⟨[⟨1, false, "a", "a"⟩, ⟨2, false, "b", "b"⟩, ⟨3, false, "c", "c"⟩], [], []⟩
    ⟨fun r _ => if r = 2 then .failed else .ok, fun _ _ => .ok⟩
    [⟨1, "Member"⟩, ⟨2, "Member"⟩, ⟨3, "Member"⟩] 1 (by decide)
    (by decide)
    (by
      intro t ht
      fin_cases ht
      · exact ⟨⟨1, false, "a", "a"⟩, rfl, rfl⟩
      · exact ⟨⟨2, false, "b", "b"⟩, rfl, rfl⟩
      · exact ⟨⟨3, false, "c", "c"⟩, rfl, rfl⟩)
    (by decide)
    (by decide)
  exact h.2.1

/-! ## C4: bots are never direct-send recipients -/

theorem sendToMember_no_bot_dm (beh : Behavior) (m' : Mem) (rid : ℕ) :
    Ev.dm rid true ∉ sendToMember beh m' := by
  cases hb : m'.bot with
  | true => simp [sendToMember, hb]
  | false =>
    cases h0 : beh.dm m'.id 0 with
    | ok => simp [sendToMember, hb, h0]
    | rateLimited ra =>
      cases h1 : beh.dm m'.id 1 <;> simp [sendToMember, hb, h0, h1]
    | failed => simp [sendToMember, hb, h0]

theorem sendBody_no_bot_dm (env : GuildEnv) (beh : Behavior) (t : TargetRec)
    (rid : ℕ) : Ev.dm rid true ∉ (sendBody env beh t).1 := by
  by_cases h1 : t.type = "TextChannel"
  · cases hc : env.getChannel t.id with
    | none => simp [sendBody, h1, hc]
    | some c => cases hr : beh.chan c.id 0 <;> simp [sendBody, h1, hc, hr]
  · by_cases h2 : t.type = "Member"
    · cases hm : env.getMember t.id with
      | none => simp [sendBody, h1, h2, hm]
      | some mm =>
        have hb : (sendBody env beh t).1 = sendToMember beh mm := by
          simp [sendBody, h1, h2, hm]
        rw [hb]
        exact sendToMember_no_bot_dm beh mm rid
    · by_cases h3 : t.type = "Role"
      · cases hr : env.getRole t.id with
        | none => simp [sendBody, h1, h2, h3, hr]
        | some r =>
          have hb : (sendBody env beh t).1
              = (r.members.map (sendToMember beh)).flatten := by
            simp [sendBody, h1, h2, h3, hr]
          rw [hb]
          intro hmem
          rcases List.mem_flatten.mp hmem with ⟨tr, htr, hev⟩
          rcases List.mem_map.mp htr with ⟨mm, _, rfl⟩
          exact sendToMember_no_bot_dm beh mm rid hev
      · simp [sendBody, h1, h2, h3]

theorem sendBody_raised_rl (env : GuildEnv) (beh : Behavior) (t : TargetRec)
    {ra : ℚ} (h : (sendBody env beh t).2 = some (.rl ra)) :
    t.type = "TextChannel" := by
  by_cases h1 : t.type = "TextChannel"
  · exact h1
  · exfalso
    by_cases h2 : t.type = "Member"
    · cases hm : env.getMember t.id with
      | none => simp [sendBody, h1, h2, hm] at h
      | some mm => simp [sendBody, h1, h2, hm] at h
    · by_cases h3 : t.type = "Role"
      · cases hr : env.getRole t.id with
        | none => simp [sendBody, h1, h2, h3, hr] at h
        | some r => simp [sendBody, h1, h2, h3, hr] at h
      · simp [sendBody, h1, h2, h3] at h

theorem retrySends_chan_no_dm (env : GuildEnv) (beh : Behavior) (t : TargetRec)
    (rid : ℕ) (htype : t.type = "TextChannel") :
    Ev.dm rid true ∉ (retrySends env beh t).1 := by
  cases hc : env.getChannel t.id with
  | none => simp [retrySends, htype, hc]
  | some c => cases hr : beh.chan c.id 1 <;> simp [retrySends, htype, hc, hr]

theorem sendToTarget_no_bot_dm (env : GuildEnv) (beh : Behavior) (t : TargetRec)
    (rid : ℕ) : Ev.dm rid true ∉ sendToTarget env beh t := by
  cases hb : (sendBody env beh t).2 with
  | none =>
    simp only [sendToTarget, hb]
    exact sendBody_no_bot_dm env beh t rid
  | some r =>
    cases r with
    | rl ra =>
      have htype := sendBody_raised_rl env beh t hb
      simp only [sendToTarget, hb]
      intro hmem
      rcases List.mem_append.mp hmem with h | h
      · exact sendBody_no_bot_dm env beh t rid h
      · simp only [retryBlock] at h
        rcases List.mem_append.mp h with h' | h'
        · rcases List.mem_append.mp h' with h'' | h''
          · simp at h''
          · exact retrySends_chan_no_dm env beh t rid htype h''
        · rcases List.mem_singleton.mp h' with h''
          cases hrs : (retrySends env beh t).2 <;> rw [hrs] at h'' <;> simp at h''
    | exc e =>
      simp only [sendToTarget, hb]
      intro hmem
      rcases List.mem_append.mp hmem with h | h
      · exact sendBody_no_bot_dm env beh t rid h
      · simp at h

/-- C4: no dispatch path ever performs a direct send to a bot account:
every DM event of every per-target trace carries a non-bot recipient
(this covers RoleGroup expansion and the transient-failure retry path,
which in `send_to_target` is reachable only for channel targets).
Moreover a role whose members are a human M1 and a bot M2 produces a
direct send to M1 only. -/
theorem no_bot_direct_send (env : GuildEnv) (beh : Behavior) (ts : List TargetRec) :
    (∀ tr ∈ notifyWords env beh ts, ∀ rid, Ev.dm rid true ∉ tr)
    ∧ (∀ (rid : ℕ) (R : RoleE) (M1 M2 : Mem),
        env.getRole rid = some R → R.members = [M1, M2] →
        M1.bot = false → M2.bot = true → beh.dm M1.id 0 = .ok →
        (sendToTarget env beh ⟨rid, "Role"⟩).filter isDmEv = [Ev.dm M1.id false]) := by
  constructor
  · intro tr htr rid
    rcases List.mem_map.mp htr with ⟨t, _, rfl⟩
    exact sendToTarget_no_bot_dm env beh t rid
  · intro rid R M1 M2 hrole hmem hb1 hb2 hok
    have hbody : sendBody env beh ⟨rid, "Role"⟩
        = ([.waitRL, .dm M1.id false, .log .sentOk], none) := by
      simp [sendBody, hrole, hmem, sendToMember, hb1, hb2, hok]
    simp [sendToTarget, hbody, isDmEv]

/-- Witness for C4's role scenario: a role with one human and one bot
member yields exactly one DM, to the human. -/
theorem no_bot_direct_send_witness :
    (sendToTarget
      ⟨[⟨7, false, "brent", "Brent"⟩, ⟨8, true, "botty", "Botty"⟩],
        [⟨20, "tech", [⟨7, false, "brent", "Brent"⟩, ⟨8, true, "botty", "Botty"⟩]⟩], []⟩
      ⟨fun _ _ => .ok, fun _ _ => .ok⟩ ⟨20, "Role"⟩).filter isDmEv
      = [Ev.dm 7 false] := by
  exact (no_bot_direct_send
    ⟨[⟨7, false, "brent", "Brent"⟩, ⟨8, true, "botty", "Botty"⟩],
      [⟨20, "tech", [⟨7, false, "brent", "Brent"⟩, ⟨8, true, "botty", "Botty"⟩]⟩], []⟩
    ⟨fun _ _ => .ok, fun _ _ => .ok⟩ []).2 20
    ⟨20, "tech", [⟨7, false, "brent", "Brent"⟩, ⟨8, true, "botty", "Botty"⟩]⟩
    ⟨7, false, "brent", "Brent"⟩ ⟨8, true, "botty", "Botty"⟩ rfl rfl rfl rfl rfl

/-! ## C10: target keys are free-text spellings -/

/-- C10: `_snitch_add` keys the group's target dict by the raw free-text
spelling, so an entity added under two different spellings that resolve
to the same member yields two distinct target records with the same id,
and one notification event performs one direct send per record: the
same recipient is messaged twice. -/
theorem duplicate_spelling_double_send (env : GuildEnv) (beh : Behavior)
    (s1 s2 : String) (M : Mem)
    (h12 : s1 ≠ s2)
    (h1 : identifyTarget env s1 = some (.member M))
    (h2 : identifyTarget env s2 = some (.member M))
    (hM : env.getMember M.id = some M)
    (hbot : M.bot = false)
    (hok : beh.dm M.id 0 = .ok) :
    (targetsOf (snitchAddCmd env [] "g" [s1, s2]) "g").map Prod.snd
      = [⟨M.id, "Member"⟩, ⟨M.id, "Member"⟩]
    ∧ ((notifyWords env beh
        ((targetsOf (snitchAddCmd env [] "g" [s1, s2]) "g").map Prod.snd)).map
          (countDmTo M.id)).sum = 2 := by
  have htgs : targetsOf (snitchAddCmd env [] "g" [s1, s2]) "g"
      = [(s1, ⟨M.id, "Member"⟩), (s2, ⟨M.id, "Member"⟩)] := by
    simp [snitchAddCmd, targetsOf, lookupKey, updateKey, h1, h2, h12,
      Entity.eid, Entity.typeName, emptyGroup]
  rw [htgs]
  refine ⟨rfl, ?_⟩
  have htr : sendToTarget env beh ⟨M.id, "Member"⟩
      = [.waitRL, .dm M.id false, .log .sentOk] :=
    sendToTarget_member_ok rfl hM hbot hok
  simp [notifyWords, htr, countDmTo]

/-- Witness for C10: the same member added once by name and once by
numeric id is messaged twice by one notification event. -/
theorem duplicate_spelling_double_send_witness :
    ((notifyWords ⟨[⟨7, false, "brent", "Brent"⟩], [], []⟩
        ⟨fun _ _ => .ok, fun _ _ => .ok⟩
        ((targetsOf (snitchAddCmd ⟨[⟨7, false, "brent", "Brent"⟩], [], []⟩ []
            "g" ["brent", "7"]) "g").map Prod.snd)).map
          (countDmTo 7)).sum = 2 := by
  exact (duplicate_spelling_double_send ⟨[⟨7, false, "brent", "Brent"⟩], [], []⟩
    ⟨fun _ _ => .ok, fun _ _ => .ok⟩ "brent" "7" ⟨7, false, "brent", "Brent"⟩
    (by decide) (by decide) (by decide) rfl rfl rfl).2

/-! ## C5: trigger detector -/

theorem isWordAt_eq_false_of_le {T : List Char} {i : ℕ} (h : T.length ≤ i) :
    isWordAt T i = false := by
  simp [isWordAt, List.getElem?_eq_none h]

theorem matchAt_le {T : List Char} {p : ℕ} {w : List Char}
    (h : matchAt T p w = true) : p ≤ T.length := by
  by_contra hgt
  push_neg at hgt
  have hb : boundaryAt T p = true := by
    simp only [matchAt, Bool.and_eq_true] at h
    exact h.1.1
  have h0 : p ≠ 0 := by
    intro e
    rw [e] at hgt
    omega
  have h1 : isWordAt T (p - 1) = false := isWordAt_eq_false_of_le (by omega)
  have h2 : isWordAt T p = false := isWordAt_eq_false_of_le (by omega)
  rw [boundaryAt, if_neg h0, h1, h2] at hb
  simp at hb

theorem findallAux_mem (ws : List (List Char)) (T : List Char) :
    ∀ (fuel p : ℕ) (s : List Char), s ∈ findallAux ws T fuel p →
      ∃ w ∈ ws, ∃ q, matchAt T q w = true ∧ s = (T.drop q).take w.length := by
  intro fuel
  induction fuel with
  | zero => intro p s hs; simp [findallAux] at hs
  | succ fuel ih =>
    intro p s hs
    rw [findallAux] at hs
    by_cases hp : p ≤ T.length
    · rw [if_pos hp] at hs
      cases hfm : firstMatch ws T p with
      | some w =>
        rw [hfm] at hs
        rcases List.mem_cons.mp hs with h | h
        · exact ⟨w, List.mem_of_find?_eq_some hfm, p, List.find?_some hfm, h⟩
        · exact ih _ s h
      | none =>
        rw [hfm] at hs
        by_cases he : p = T.length
        · rw [if_pos he] at hs
          simp at hs
        · rw [if_neg he] at hs
          exact ih _ s hs
    · rw [if_neg hp] at hs
      simp at hs

theorem findallAux_ne_nil (ws : List (List Char)) (T : List Char)
    {w : List Char} {q : ℕ} (hw : w ∈ ws) (hq : matchAt T q w = true) :
    ∀ (fuel p : ℕ), p ≤ q → T.length + 1 ≤ fuel + p →
      findallAux ws T fuel p ≠ [] := by
  have hqT : q ≤ T.length := matchAt_le hq
  intro fuel
  induction fuel with
  | zero => intro p hpq hfp; omega
  | succ fuel ih =>
    intro p hpq hfp
    rw [findallAux, if_pos (by omega)]
    cases hfm : firstMatch ws T p with
    | some w' => simp
    | none =>
      have hall := List.find?_eq_none.mp hfm
      have hpq' : p ≠ q := by
        intro e
        exact (hall w hw) (by rw [e]; exact hq)
      rw [if_neg (by omega)]
      exact ih (p + 1) (by omega) (by omega)

theorem occursWholeWordCI_iff (w T : List Char) :
    occursWholeWordCI w T = true ↔ ∃ q, matchAt T q w = true := by
  constructor
  · intro h
    rcases List.any_eq_true.mp h with ⟨q, _, hq⟩
    exact ⟨q, hq⟩
  · rintro ⟨q, hq⟩
    exact List.any_eq_true.mpr ⟨q, List.mem_range.mpr (by have := matchAt_le hq; omega), hq⟩

/-- C5 counterexample: the claim says a configured word `w` is reported
as matched iff it occurs in the text as a case-insensitive whole-word
token.  `findall` returns the matched text in the text's own spelling:
for word list `["it"]` and text `"It"`, the reported set is `{"It"}` —
the configured word `"it"` is not in it even though it occurs
case-insensitively as a whole word. -/
theorem detector_case_spelling_counterexample :
    snitchMatches ["it".toList] "It".toList = ["It".toList]
    ∧ "it".toList ∉ snitchMatches ["it".toList] "It".toList
    ∧ occursWholeWordCI "it".toList "It".toList = true := by
  exact ⟨by decide, by decide, by decide⟩

/-- C5 (amended): the reported set is nonempty iff some configured word
occurs in the text as a case-insensitive whole-word token (word-boundary
semantics, each configured word compared literally character by
character); every reported string is the text's own spelling of a
whole-word occurrence that some configured word matches
case-insensitively (so it can differ from the configured word in letter
case, and an occurrence overlapping an earlier non-overlapping match may
go unreported); the reported strings are deduplicated. -/
theorem detector_matches_characterization (ws : List (List Char)) (T : List Char) :
    (snitchMatches ws T ≠ [] ↔ ∃ w ∈ ws, occursWholeWordCI w T = true)
    ∧ (∀ s ∈ snitchMatches ws T, ∃ w ∈ ws, ∃ q, matchAt T q w = true
        ∧ s = (T.drop q).take w.length)
    ∧ (snitchMatches ws T).Nodup := by
  refine ⟨⟨?_, ?_⟩, ?_, List.nodup_dedup _⟩
  · intro hne
    rcases List.exists_mem_of_ne_nil _ hne with ⟨s, hs⟩
    rcases findallAux_mem ws T _ _ s (List.mem_dedup.mp hs) with ⟨w, hw, q, hq, _⟩
    exact ⟨w, hw, (occursWholeWordCI_iff w T).mpr ⟨q, hq⟩⟩
  · rintro ⟨w, hw, hocc⟩
    rcases (occursWholeWordCI_iff w T).mp hocc with ⟨q, hq⟩
    have := findallAux_ne_nil ws T hw hq (T.length + 1) 0 (by omega) (by omega)
    simp only [snitchMatches, ne_eq, pyFindall]
    rw [List.dedup_eq_nil]
    exact this
  · intro s hs
    exact findallAux_mem ws T _ _ s (List.mem_dedup.mp hs)

/-- Witness for C5's amended theorem at the spec's own scenario. -/
theorem detector_characterization_witness :
    snitchMatches ["wifi".toList, "computer".toList] "the wifi is down".toList ≠ [] := by
  exact (detector_matches_characterization
    ["wifi".toList, "computer".toList] "the wifi is down".toList).1.mpr
    ⟨"wifi".toList, by decide, by decide⟩

/-! ## C3: rate limiter -/

theorem rlStep_prune (m : ℕ) (l : List ℚ) (now : ℚ) :
    rlStep m (pruneTs now l) now = rlStep m l now := by
  have h : pruneTs now (pruneTs now l) = pruneTs now l := by
    simp [pruneTs, List.filter_filter]
  simp only [rlStep, h]

theorem rlProceeds_prune (m n : ℕ) (l : List ℚ) (now : ℚ) :
    rlProceeds m n (pruneTs now l) now = rlProceeds m n l now := by
  cases n with
  | zero => rfl
  | succ n => simp only [rlProceeds, rlStep_prune]

theorem pruneTs_replicate_self (t' : ℚ) (r : ℕ) :
    pruneTs t' (List.replicate r t') = List.replicate r t' := by
  apply List.filter_eq_self.mpr
  intro a ha
  rw [List.eq_of_mem_replicate ha]
  simp

theorem pruneTs_stale (t' : ℚ) (r : ℕ) :
    pruneTs (t' + 1) (List.replicate r t' ++ [t' + 1]) = [t' + 1] := by
  rw [pruneTs, List.filter_append]
  have h1 : (List.replicate r t').filter (fun ts => decide (t' + 1 - ts < 1)) = [] := by
    apply List.filter_eq_nil_iff.mpr
    intro a ha
    rw [List.eq_of_mem_replicate ha]
    simp
  rw [h1]
  simp

/-- Shape of one call when the pruned window is below the ceiling. -/
theorem rlStep_eq_free (m : ℕ) (l : List ℚ) (now : ℚ)
    (hlim : ¬ m ≤ (pruneTs now l).length) :
    rlStep m l now = (pruneTs now l ++ [now], now) := by
  simp only [rlStep]
  rw [if_neg hlim]

/-- Shape of one call when the pruned window is empty (only possible at
the ceiling when `m = 0`). -/
theorem rlStep_eq_empty (m : ℕ) (l : List ℚ) (now : ℚ)
    (hpr : pruneTs now l = []) :
    rlStep m l now = (pruneTs now l ++ [now], now) := by
  simp only [rlStep]
  rw [hpr]
  split <;> rfl

/-- Shape of one call at the ceiling: the caller waits out the oldest
pruned timestamp (when the wait is positive) and records the time it
proceeds. -/
theorem rlStep_eq_full (m : ℕ) (l : List ℚ) (now t0 : ℚ) (rest : List ℚ)
    (hpr : pruneTs now l = t0 :: rest) (hlim : m ≤ (pruneTs now l).length) :
    rlStep m l now =
      (if 0 < 1 - (now - t0) then
        (pruneTs now l ++ [now + (1 - (now - t0))], now + (1 - (now - t0)))
      else (pruneTs now l ++ [now], now)) := by
  simp only [rlStep]
  rw [hpr] at hlim ⊢
  rw [if_pos hlim]

/-- Closed form of a burst started against `r ≤ m` fresh timestamps at
the current instant: the `i`-th subsequent send proceeds `(r+i)/m`
whole seconds later. -/
theorem rlProceeds_replicate (m : ℕ) (hm : 1 ≤ m) :
    ∀ (n r : ℕ) (t' : ℚ), r ≤ m →
      rlProceeds m n (List.replicate r t') t' =
        (List.range n).map (fun i => t' + (((r + i) / m : ℕ) : ℚ)) := by
  intro n
  induction n with
  | zero => intro r t' _; simp [rlProceeds]
  | succ n ih =>
    intro r t' hr
    by_cases hlim : r = m
    · obtain ⟨m', rfl⟩ : ∃ m', m = m' + 1 := ⟨m - 1, by omega⟩
      subst hlim
      have hpr : pruneTs t' (List.replicate (m' + 1) t') = t' :: List.replicate m' t' := by
        rw [pruneTs_replicate_self, List.replicate_succ]
      have hw : (0 : ℚ) < 1 - (t' - t') := by
        rw [sub_self, sub_zero]
        norm_num
      have hstep : rlStep (m' + 1) (List.replicate (m' + 1) t') t' =
          (List.replicate (m' + 1) t' ++ [t' + 1], t' + 1) := by
        rw [rlStep_eq_full (m' + 1) _ t' t' (List.replicate m' t') hpr
          (by rw [pruneTs_replicate_self, List.length_replicate])]
        rw [if_pos hw, pruneTs_replicate_self]
        rw [sub_self, sub_zero]
      simp only [rlProceeds]
      rw [hstep]
      simp only
      rw [← rlProceeds_prune, pruneTs_stale]
      have h1 : [t' + 1] = List.replicate 1 (t' + 1) := rfl
      rw [h1, ih 1 (t' + 1) (by omega)]
      rw [List.range_succ_eq_map, List.map_cons, List.map_map]
      congr 1
      · rw [Nat.add_zero, Nat.div_self (by omega)]
        norm_num
      · apply List.map_congr_left
        intro i _
        simp only [Function.comp_apply, Nat.succ_eq_add_one]
        have hdiv : (m' + 1 + (i + 1)) / (m' + 1) = (1 + i) / (m' + 1) + 1 := by
          rw [Nat.add_comm (m' + 1) (i + 1), Nat.add_div_right _ (by omega),
            Nat.add_comm i 1]
        rw [hdiv]
        push_cast
        ring
    · have hrm : r < m := by omega
      have hstep : rlStep m (List.replicate r t') t' =
          (List.replicate (r + 1) t', t') := by
        rw [rlStep_eq_free m _ t'
          (by rw [pruneTs_replicate_self, List.length_replicate]; omega)]
        rw [pruneTs_replicate_self, List.replicate_succ']
      simp only [rlProceeds]
      rw [hstep]
      simp only
      rw [ih (r + 1) t' (by omega)]
      rw [List.range_succ_eq_map, List.map_cons, List.map_map]
      congr 1
      · rw [Nat.add_zero, Nat.div_eq_of_lt hrm]
        norm_num
      · apply List.map_congr_left
        intro i _
        simp only [Function.comp_apply, Nat.succ_eq_add_one]
        have h : r + 1 + i = r + (i + 1) := by omega
        rw [h]

theorem rlBurst_eq (m : ℕ) (hm : 1 ≤ m) (n : ℕ) (t : ℚ) :
    rlBurst m n t = (List.range n).map (fun i => t + ((i / m : ℕ) : ℚ)) := by
  have h0 : ([] : List ℚ) = List.replicate 0 t := rfl
  rw [rlBurst, h0, rlProceeds_replicate m hm n 0 t (by omega)]
  simp

theorem inWindow_iff (T x : ℚ) : inWindow T x = true ↔ T - x < 1 ∧ x ≤ T := by
  simp [inWindow]

/-- Two whole-second offsets lying in the same trailing 1-second window
are equal. -/
theorem window_offsets_eq (t T : ℚ) {a b : ℕ}
    (ha : T - (t + (a : ℚ)) < 1 ∧ (t + (a : ℚ)) ≤ T)
    (hb : T - (t + (b : ℚ)) < 1 ∧ (t + (b : ℚ)) ≤ T) : a = b := by
  have h1 : (a : ℚ) < (b : ℚ) + 1 := by linarith [ha.2, hb.1]
  have h2 : (b : ℚ) < (a : ℚ) + 1 := by linarith [hb.2, ha.1]
  have h1' : a < b + 1 := by exact_mod_cast h1
  have h2' : b < a + 1 := by exact_mod_cast h2
  omega

theorem count_window_le (m : ℕ) (hm : 1 ≤ m) (n : ℕ) (t T : ℚ) :
    ((List.range n).map (fun i => t + ((i / m : ℕ) : ℚ))).countP (inWindow T) ≤ m := by
  rw [List.countP_map, List.countP_eq_length_filter]
  set g : ℕ → Bool := (inWindow T) ∘ (fun i => t + ((i / m : ℕ) : ℚ)) with hg
  cases hl : (List.range n).filter g with
  | nil => simp [hl]
  | cons j0 rest =>
    rw [← hl]
    have hj0 : j0 ∈ (List.range n).filter g := by rw [hl]; exact List.mem_cons_self _ _
    have hsame : ∀ i ∈ (List.range n).filter g, i / m = j0 / m := by
      intro i hi
      have hgi := (List.mem_filter.mp hi).2
      have hgj := (List.mem_filter.mp hj0).2
      exact window_offsets_eq t T ((inWindow_iff _ _).mp hgi) ((inWindow_iff _ _).mp hgj)
    have hnd : ((List.range n).filter g).Nodup := (List.nodup_range n).filter g
    rw [← List.toFinset_card_of_nodup hnd]
    have hsub : ((List.range n).filter g).toFinset ⊆
        Finset.Ico (j0 / m * m) (j0 / m * m + m) := by
      intro x hx
      have hxl : x ∈ (List.range n).filter g := List.mem_toFinset.mp hx
      have hq := hsame x hxl
      rw [Finset.mem_Ico]
      constructor
      · calc j0 / m * m = x / m * m := by rw [hq]
          _ ≤ x := Nat.div_mul_le_self x m
      · have : x / m < j0 / m + 1 := by omega
        have := (Nat.div_lt_iff_lt_mul (by omega : 0 < m)).mp this
        calc x < (j0 / m + 1) * m := this
          _ = j0 / m * m + m := by ring
    calc ((List.range n).filter g).toFinset.card
        ≤ (Finset.Ico (j0 / m * m) (j0 / m * m + m)).card := Finset.card_le_card hsub
      _ = m := by rw [Nat.card_Ico]; omega

/-- Uniform shape of one `wait_if_needed` call: the new window is the
pruned window with the proceed time appended, the clock does not move
backwards, and no pruned entry is more than one second older than the
proceed time. -/
theorem rlStep_spec (m : ℕ) (l : List ℚ) (now : ℚ) (hs : l.Sorted (· ≤ ·)) :
    ∃ p, rlStep m l now = (pruneTs now l ++ [p], p)
      ∧ now ≤ p
      ∧ ∀ ts ∈ pruneTs now l, p - ts ≤ 1 := by
  have hpmem : ∀ ts ∈ pruneTs now l, now - ts < 1 := by
    intro ts hts
    have h1 := List.mem_filter.mp hts
    simpa using h1.2
  by_cases hlim : m ≤ (pruneTs now l).length
  · cases hpr : pruneTs now l with
    | nil =>
      refine ⟨now, ?_, le_refl now, ?_⟩
      · rw [rlStep_eq_empty m l now hpr, hpr]
      · intro ts hts
        simp at hts
    | cons t0 rest =>
      have ht0mem : t0 ∈ pruneTs now l := by
        rw [hpr]
        exact List.mem_cons_self _ _
      have hw : (0 : ℚ) < 1 - (now - t0) := by linarith [hpmem t0 ht0mem]
      have ht0min : ∀ ts ∈ pruneTs now l, t0 ≤ ts := by
        intro ts hts
        have hps : (pruneTs now l).Sorted (· ≤ ·) := hs.filter _
        rw [hpr] at hts hps
        rcases List.mem_cons.mp hts with h | h
        · rw [h]
        · exact (List.sorted_cons.mp hps).1 ts h
      refine ⟨now + (1 - (now - t0)), ?_, by linarith, ?_⟩
      · rw [rlStep_eq_full m l now t0 rest hpr hlim, if_pos hw, hpr]
      · intro ts hts
        have := ht0min ts (by rw [hpr]; exact hts)
        have hnow' : now + (1 - (now - t0)) = t0 + 1 := by ring
        rw [hnow']
        linarith
  · refine ⟨now, rlStep_eq_free m l now hlim, le_refl now, ?_⟩
    intro ts hts
    have := hpmem ts hts
    linarith

/-- Invariant preservation of one `wait_if_needed` call: from a sorted
window whose entries precede the clock, the call yields a sorted window
whose entries precede the new clock, nothing in the window is more than
one second older than the time the call returns, and the clock moves
forward. -/
theorem rlStep_inv (m : ℕ) (l : List ℚ) (now : ℚ)
    (hs : l.Sorted (· ≤ ·)) (hle : ∀ ts ∈ l, ts ≤ now) :
    (rlStep m l now).1.Sorted (· ≤ ·)
    ∧ (∀ ts ∈ (rlStep m l now).1, ts ≤ (rlStep m l now).2)
    ∧ (∀ ts ∈ (rlStep m l now).1, (rlStep m l now).2 - ts ≤ 1)
    ∧ now ≤ (rlStep m l now).2 := by
  obtain ⟨p, heq, hnp, hage⟩ := rlStep_spec m l now hs
  have hpmem : ∀ ts ∈ pruneTs now l, ts ≤ now := by
    intro ts hts
    exact hle ts (List.mem_filter.mp hts).1
  rw [heq]
  refine ⟨?_, ?_, ?_, hnp⟩
  · exact List.pairwise_append.mpr ⟨hs.filter _, List.pairwise_singleton _ _,
      fun a ha b hb => by
        rw [List.mem_singleton] at hb
        rw [hb]
        exact le_trans (hpmem a ha) hnp⟩
  · intro ts hts
    rcases List.mem_append.mp hts with h | h
    · exact le_trans (hpmem ts h) hnp
    · rw [List.mem_singleton] at h
      rw [h]
  · intro ts hts
    rcases List.mem_append.mp hts with h | h
    · exact hage ts h
    · rw [List.mem_singleton] at h
      rw [h]
      norm_num

/-- After every call of a back-to-back run, no window entry is older
than one second relative to the time that call returned. -/
theorem rlRun_inv (m : ℕ) : ∀ (j : ℕ) (l : List ℚ) (now : ℚ),
    l.Sorted (· ≤ ·) → (∀ ts ∈ l, ts ≤ now) →
    (rlRun m j l now).1.Sorted (· ≤ ·)
    ∧ (∀ ts ∈ (rlRun m j l now).1, ts ≤ (rlRun m j l now).2)
    ∧ (j ≠ 0 → ∀ ts ∈ (rlRun m j l now).1, (rlRun m j l now).2 - ts ≤ 1) := by
  intro j
  induction j with
  | zero =>
    intro l now hs hle
    exact ⟨hs, hle, fun h => absurd rfl h⟩
  | succ j ih =>
    intro l now hs hle
    have hstep := rlStep_inv m l now hs hle
    have hrec := ih (rlStep m l now).1 (rlStep m l now).2 hstep.1 hstep.2.1
    cases j with
    | zero =>
      simp only [rlRun]
      exact ⟨hstep.1, hstep.2.1, fun _ => hstep.2.2.1⟩
    | succ j' =>
      simp only [rlRun] at hrec ⊢
      exact ⟨hrec.1, hrec.2.1, fun _ => hrec.2.2 (by omega)⟩

/-- C3: a burst of `maxPerSecond + k` back-to-back `wait_if_needed`
calls against a fresh limiter records at most `maxPerSecond` send
timestamps inside any trailing 1-second window, and after every call no
entry of the timestamp list is older than one second relative to the
time the call returned (the list is pruned lazily on every check). -/
theorem rate_limiter_window_bound (m k : ℕ) (hm : 1 ≤ m) (t T : ℚ) :
    (rlBurst m (m + k) t).countP (inWindow T) ≤ m
    ∧ (∀ j, j ≠ 0 → ∀ ts ∈ (rlRun m j [] t).1, (rlRun m j [] t).2 - ts ≤ 1) := by
  constructor
  · rw [rlBurst_eq m hm (m + k) t]
    exact count_window_le m hm (m + k) t T
  · intro j hj
    exact (rlRun_inv m j [] t (List.sorted_nil) (by intro ts h; simp at h)).2.2 hj

/-- Witness for C3 at `maxPerSecond = 2`, a burst of 3, window ending
at time 1; the burst evaluates to proceed times `[0, 0, 1]`. -/
theorem rate_limiter_window_bound_witness :
    (1 ≤ 2 ∧ (rlBurst 2 3 0).countP (inWindow 1) ≤ 2)
    ∧ rlBurst 2 3 0 = [0, 0, 1] := by
  refine ⟨⟨by decide, (rate_limiter_window_bound 2 1 (by decide) 0 1).1⟩, ?_⟩
  rw [rlBurst_eq 2 (by norm_num) 3 0]
  norm_num [List.range_succ]

/-! ## C6: templating -/

theorem containsSub_cons (pat : List Char) (c : Char) (rest : List Char) :
    containsSub pat (c :: rest) = (pat.isPrefixOf (c :: rest) || containsSub pat rest) := by
  simp only [containsSub, List.length_cons, List.range_succ_eq_map, List.any_cons,
    List.any_map, List.drop_zero]
  rfl

theorem replaceAllF_nil (pat rep : List Char) (fuel : ℕ) :
    replaceAllF pat rep fuel [] = [] := by
  cases fuel <;> rfl

theorem replaceAllF_id (pat rep : List Char) (fuel : ℕ) (s : List Char)
    (h : containsSub pat s = false) : replaceAllF pat rep fuel s = s := by
  induction fuel generalizing s with
  | zero => rfl
  | succ fuel ih =>
    cases s with
    | nil => rfl
    | cons c rest =>
      rw [containsSub_cons, Bool.or_eq_false_iff] at h
      simp only [replaceAllF, h.1, Bool.false_eq_true, if_false]
      rw [ih rest h.2]

theorem replaceAll_id (pat rep s : List Char) (h : containsSub pat s = false) :
    replaceAll pat rep s = s := by
  cases pat with
  | nil => rfl
  | cons p ps => exact replaceAllF_id _ _ _ _ h

theorem replaceAll_self (pat rep : List Char) (h : pat ≠ []) :
    replaceAll pat rep pat = rep := by
  cases pat with
  | nil => exact absurd rfl h
  | cons p ps =>
    have hpre : (p :: ps).isPrefixOf (p :: ps) = true := by
      rw [List.isPrefixOf_iff_prefix]
    simp only [replaceAll, replaceAllF, List.length_cons, hpre, if_true]
    have hd : (p :: ps).drop (ps.length + 1) = [] := by
      have := List.drop_length (p :: ps)
      simp only [List.length_cons] at this
      exact this
    rw [hd, replaceAllF_nil, List.append_nil]

/-- C6 counterexample: the claim says a token marker contained inside a
substituted value is not itself substituted.  With template
`{{author}}` and an author display name that is literally the text
`{{words}}`, the chained `.replace` calls of lines 460-465 substitute
the words value into the marker that arrived inside the author value:
the render yields "wifi", not the literal `{{words}}`. -/
theorem template_resubstitution_counterexample :
    renderMessage (some authorTok) wordsTok "wifi".toList "S".toList "C".toList
      = "wifi".toList
    ∧ "wifi".toList ≠ wordsTok := by
  exact ⟨by decide, by decide⟩

/-- C6 (amended): rendering performs four full replace passes in the
fixed order author, words, server, channel; each pass replaces every
occurrence (also occurrences introduced by an earlier pass) with the
literal value, so a later token marker inside an earlier-substituted
value is substituted again; a template containing none of the four
markers is returned unchanged. -/
theorem template_render_passes :
    (∀ tpl a w s c : List Char,
      containsSub authorTok tpl = false → containsSub wordsTok tpl = false →
      containsSub serverTok tpl = false → containsSub channelTok tpl = false →
      renderMessage (some tpl) a w s c = tpl)
    ∧ (∀ a w s c : List Char,
      renderMessage (some authorTok) a w s c =
        replaceAll channelTok c (replaceAll serverTok s (replaceAll wordsTok w a))) := by
  constructor
  · intro tpl a w s c h1 h2 h3 h4
    simp only [renderMessage, Option.getD_some]
    rw [replaceAll_id _ _ _ h1, replaceAll_id _ _ _ h2, replaceAll_id _ _ _ h3,
      replaceAll_id _ _ _ h4]
  · intro a w s c
    simp only [renderMessage, Option.getD_some]
    rw [replaceAll_self authorTok a (by decide)]

/-- Witness for C6's amended theorem: a tokenless template is unchanged. -/
theorem template_render_passes_witness :
    containsSub authorTok "hello".toList = false
    ∧ renderMessage (some "hello".toList) "A".toList "w".toList "S".toList "C".toList
        = "hello".toList := by
  exact ⟨by decide,
    template_render_passes.1 "hello".toList "A".toList "w".toList "S".toList "C".toList
      (by decide) (by decide) (by decide) (by decide)⟩

/-- Witness for C9. -/
theorem words_add_idempotent_witness :
    "wifi" ∈ ["wifi", "computer"]
    ∧ wordsAddWord ["wifi", "computer"] "wifi" = ["wifi", "computer"] := by
  exact ⟨by decide, (words_add_idempotent ["wifi", "computer"] "wifi").2.1 (by decide)⟩

end Snitch
